import Mathlib

/-!
Shallow embedding of the CauchyCoding orchestration layer of
`c_src/cauchycoding.cpp` (leo_erasure): parameter validation, stripe
layout, encode, decode and repair.  The jerasure "Field Engine"
(matrix generation, bit-matrix scheduling and scheduled encode/decode)
lives outside the sources under verification and is treated by the
specification as an external black box with the contracts of its §6;
here it is modelled as an abstract `FieldEngine` structure.

Bytes are modelled as `Nat`, byte buffers as `List Nat`, fragment
collections as `List (List Nat)`.  `size_t` wrap-around subtraction is
modelled with an explicit `% 2^64`.  Uninitialised allocations are
represented by zero bytes; the proved theorems only expose bytes that
the code writes deterministically before returning them.
-/

namespace LeoErasure

/-- All-zero buffer of `n` bytes (value of a `memset(_, 0, n)` region). -/
def zeros (n : Nat) : List Nat := List.replicate n 0

/-- Value of `enif_make_sub_binary(_, l, off, len)`: the `len` bytes of `l`
starting at offset `off`. -/
def slice (l : List Nat) (off len : Nat) : List Nat := (l.drop off).take len

/-- Value read by `memcpy(dst, b, bs)` into a zero-initialised `bs`-byte
slot: the first `bs` bytes of `b`, zero-extended if `b` is shorter
(an out-of-range read of the source buffer never reaches a result in
the theorems below, which require `b.length = bs`). -/
def fit (bs : Nat) (b : List Nat) : List Nat := b.take bs ++ zeros (bs - b.length)

/-- The `len` bytes at offset `off` of `xs` extended on the right by
enough zero padding: the common value of the data-fragment windows the
encoder carves out of the (conceptually zero-padded) object. -/
def padSlice (xs : List Nat) (off len : Nat) : List Nat :=
  (xs.drop off).take len ++ zeros (len - (xs.length - off))

/-- Data fragment number `i` of an object striped into `bs`-byte blocks. -/
def dataChunk (xs : List Nat) (bs i : Nat) : List Nat := padSlice xs (i * bs) bs

/-- Modelled from the spec: `roundUp`/`roundTo` (declared in the
repository's `coding.h`, which is not among the sources under
verification) rounds `n` up to the next multiple of `mult`. -/
def roundTo (n mult : Nat) : Nat := ((n + mult - 1) / mult) * mult

/-- Line 50: `blockSize = roundTo((roundTo(dataSize, k*w) / (k*w)), 16) * w`. -/
def blockSizeOf (k w ds : Nat) : Nat := roundTo (roundTo ds (k * w) / (k * w)) 16 * w

/-- Modelled from the spec: `ceil(dataSize / unit)` of §4.2. -/
def ceilDivSpec (a b : Nat) : Nat := (a + b - 1) / b

/-- The error conditions the layer reports via `std::invalid_argument`:
the two `checkParams` messages and the two decode/repair precondition
messages ("Not Enough Blocks", "Blocks should be unique"). -/
inductive CodingError
  | invalidParams
  | invalidParamsLargerW
  | notEnoughBlocks
  | blocksNotUnique
deriving DecidableEq

/-- Lines 31-36, `CauchyCoding::checkParams`.  The C source compares
`k + m` with `1 << w`, modelled mathematically as `2 ^ w` (`w > 0`
holds whenever the shift is reached). -/
def checkParams (k m w : Int) : Except CodingError Unit :=
  if k ≤ 0 ∨ m ≤ 0 ∨ w ≤ 0 then .error .invalidParams
  else if (2 : Int) ^ w.toNat < k + m then .error .invalidParamsLargerW
  else .ok ()

/-- Modelled from the spec: the Field Engine of §6 (jerasure and the
repository's `jerasure_mod`, all outside the sources under
verification).  `enc k m w bs dataBlocks` is the parity produced by
`jerasure_schedule_encode`; `dec` is `jerasure_schedule_decode_data_lazy`
acting on the `k+m` scratch slots; `decSel` is
`jerasure_schedule_decode_selected_lazy`.  Each operation fills
`bs`-byte slots in place (the source also passes the packet size
`bs / w`, a function of the `bs` and `w` arguments), which is the shape
contract recorded by the proof fields. -/
structure FieldEngine where
  enc : Nat → Nat → Nat → Nat → List (List Nat) → List (List Nat)
  dec : Nat → Nat → Nat → Nat → List Nat → List (List Nat) → List (List Nat)
  decSel : Nat → Nat → Nat → Nat → List Nat → List Nat → List (List Nat) → List (List Nat)
  enc_length : ∀ k m w bs d, (enc k m w bs d).length = m
  enc_blocks : ∀ k m w bs d, ∀ b ∈ enc k m w bs d, b.length = bs
  dec_length : ∀ k m w bs E s, (dec k m w bs E s).length = s.length
  dec_blocks : ∀ k m w bs E s, (∀ b ∈ s, b.length = bs) → ∀ b ∈ dec k m w bs E s, b.length = bs
  decSel_length : ∀ k m w bs E r s, (decSel k m w bs E r s).length = s.length
  decSel_blocks : ∀ k m w bs E r s, (∀ b ∈ s, b.length = bs) →
    ∀ b ∈ decSel k m w bs E r s, b.length = bs

/-- The full `k+m`-fragment codeword of a list of data blocks: data
first, then the Field Engine's parity. -/
def Codeword (F : FieldEngine) (k m w bs : Nat) (dblocks : List (List Nat)) :
    List (List Nat) :=
  dblocks ++ F.enc k m w bs dblocks

/-- Modelled from the spec: the §6/§8 decoding contract of the Field
Engine at parameters `(k, m, w)`.  Whenever the non-erased slots of a
`k+m`-slot scratch region agree with the codeword of some data blocks
and at most `m` slots are erased, `dec` restores every data slot of
that codeword. -/
def EngineCorrectAt (F : FieldEngine) (k m w : Nat) : Prop :=
  ∀ (bs : Nat) (dblocks : List (List Nat)) (E : List Nat) (slots : List (List Nat)),
    dblocks.length = k →
    (∀ b ∈ dblocks, b.length = bs) →
    slots.length = k + m →
    (∀ b ∈ slots, b.length = bs) →
    E.Nodup → (∀ e ∈ E, e < k + m) → E.length ≤ m →
    (∀ i, i < k + m → i ∉ E → slots.getD i [] = (Codeword F k m w bs dblocks).getD i []) →
    ∀ i, i < k → (F.dec k m w bs E slots).getD i [] = dblocks.getD i []

/-- Modelled from the spec: §6 relates the two decode primitives — the
selected variant fills each selected slot with the same reconstruction
the full variant writes there. -/
def EngineSelConsistent (F : FieldEngine) (k m w : Nat) : Prop :=
  ∀ (bs : Nat) (E sel : List Nat) (slots : List (List Nat)), ∀ i ∈ sel,
    (F.decSel k m w bs E sel slots).getD i [] = (F.dec k m w bs E slots).getD i []

/-- Lines 52-60: the carving loop of `doEncode`, modelled with explicit
fuel because its exit is governed by `remain >= blockSize` only.
Returns `(filled, remain)` on exit, `none` if the fuel runs out. -/
def fillLoop (bs : Nat) : Nat → Nat → Nat → Option (Nat × Nat)
  | 0, _, _ => none
  | fuel + 1, remain, filled =>
    if bs ≤ remain then fillLoop bs fuel (remain - bs) (filled + 1)
    else some (filled, remain)

/-- Lines 61-89 of `doEncode`, after the carving loop has produced
`filled`: the zeroed scratch region receives the object's tail
(lines 65-66), the Field Engine fills the parity slots in place
(line 73), and the returned list holds `filled` zero-copy views of the
object followed by views into the scratch region (lines 75-83).  The
16-byte alignment slack of lines 62-64 has no value-level effect. -/
def doEncodeCore (F : FieldEngine) (k m w : Nat) (data : List Nat) (filled : Nat) :
    List (List Nat) :=
  let ds := data.length
  let bs := blockSizeOf k w ds
  let scratch0 := data.drop (filled * bs) ++ zeros ((k + m - filled) * bs - (ds - filled * bs))
  let dataBlocks := (List.range k).map (fun i =>
    if i < filled then slice data (i * bs) bs else slice scratch0 ((i - filled) * bs) bs)
  let parity := F.enc k m w bs dataBlocks
  let scratchFinal := scratch0.take ((k - filled) * bs) ++ List.flatten parity
  (List.range (k + m)).map (fun i =>
    if i < filled then slice data (i * bs) bs else slice scratchFinal ((i - filled) * bs) bs)

/-- Lines 38-90, `CauchyCoding::doEncode`, with the carving loop run on
a given amount of fuel. -/
def doEncodeFuel (F : FieldEngine) (k m w : Nat) (data : List Nat) (fuel : Nat) :
    Option (List (List Nat)) :=
  match fillLoop (blockSizeOf k w data.length) fuel data.length 0 with
  | none => none
  | some (filled, _) => some (doEncodeCore F k m w data filled)

/-- Lines 38-90, `CauchyCoding::doEncode`.  Fuel `data.length + 1`
suffices for every terminating run of the carving loop, so a `none`
result means the loop genuinely never exits. -/
def doEncode (F : FieldEngine) (k m w : Nat) (data : List Nat) :
    Option (List (List Nat)) :=
  doEncodeFuel F k m w data (data.length + 1)

/-- Lines 104-108 / 172-176: `blockSize` is overwritten on every
iteration of the inspection loop, so its final value is the length of
the last inspected fragment (`0` stands for the indeterminate value
left when the loop body never runs). -/
def lastBlockSize (bl : List (List Nat)) : Nat :=
  bl.foldl (fun _ b => b.length) 0

/-- The `blocks[blockId]` table of lines 103-108 and 171-176: fragment
index `id` maps to the supplied buffer paired with it (`[]` stands for
the indeterminate value of a never-assigned entry, which the theorems
never read). -/
def blocksOf (bl : List (List Nat)) (ids : List Nat) (id : Nat) : List Nat :=
  (List.lookup id (ids.zip bl)).getD []

/-- Lines 137-146 / 185-194: the erasure list — the fragment indices in
`0..k+m-1` that were not supplied, in increasing order.  The `-1`
sentinel the C code appends is represented by the end of the list. -/
def erasuresOf (k m : Nat) (ids : List Nat) : List Nat :=
  (List.range (k + m)).filter (fun i => decide (i ∉ ids))

/-- Lines 133-145 / 181-193: the `k+m` scratch slots before the Field
Engine call: supplied fragments are copied in (`memcpy`, `bs` bytes),
missing slots keep their allocation-time contents (modelled as zeros;
erased data slots are overwritten by the engine before any byte of
them can reach a result in the theorems below). -/
def scratchInit (k m bs : Nat) (bl : List (List Nat)) (ids : List Nat) :
    List (List Nat) :=
  (List.range (k + m)).map (fun i =>
    if i ∈ ids then fit bs (blocksOf bl ids i) else zeros bs)

/-- Wrap-around `size_t` subtraction (`dataSize - offset` on line 123). -/
def subSizeT (a b : Nat) : Nat := (a + 2 ^ 64 - b) % 2 ^ 64

/-- Value of `memcpy`'s source argument when `n` bytes are read from
buffer `b` (reads past `b` are modelled as zeros; the theorems below
only exercise `n ≤ b.length`). -/
def readN (b : List Nat) (n : Nat) : List Nat := b.take n ++ zeros (n - b.length)

/-- Writing the bytes `src` at offset `off` of buffer `buf`: bytes that
fall outside the allocation do not appear in the returned value. -/
def writeAt (buf src : List Nat) (off : Nat) : List Nat :=
  (buf.take off ++ src ++ buf.drop (off + src.length)).take buf.length

/-- Lines 117-127: the fast-path output buffer after the `k` copy
iterations (allocation-time contents modelled as zeros; within the
hypotheses of the theorems below every byte of the result is written). -/
def fastPathOut (k bs : Nat) (blocks : Nat → List Nat) (ds : Nat) : List Nat :=
  (List.range k).foldl
    (fun buf i => writeAt buf (readN (blocks i) (min (subSizeT ds (i * bs)) bs)) (i * bs))
    (zeros ds)

/-- Lines 110-115: `needFix` is set when some data index below `k` was
not supplied. -/
def needFix (k : Nat) (ids : List Nat) : Bool :=
  (List.range k).any (fun i => decide (i ∉ ids))

/-- Lines 130-150: the full scratch reconstruction `doDecode` computes
on its erasure path — the initialized slots run through the Field
Engine's full (non-selected) decode. -/
def decodeReconstruction (F : FieldEngine) (k m w bs : Nat) (bl : List (List Nat))
    (ids : List Nat) : List (List Nat) :=
  F.dec k m w bs (erasuresOf k m ids) (scratchInit k m bs bl ids)

/-- Lines 92-158, `CauchyCoding::doDecode`, parameterised by the
`blockSize` the inspection loop produced. -/
def doDecodeWith (F : FieldEngine) (k m w bs : Nat) (bl : List (List Nat))
    (ids : List Nat) (ds : Nat) : Except CodingError (List Nat) :=
  if ids.dedup.length < k then .error .notEnoughBlocks
  else if ids.dedup.length < ids.length then .error .blocksNotUnique
  else if needFix k ids = false then
    .ok (fastPathOut k bs (blocksOf bl ids) ds)
  else
    .ok ((List.flatten (decodeReconstruction F k m w bs bl ids)).take ds)

/-- Lines 92-158, `CauchyCoding::doDecode`: the inspection loop runs
over `blockIdList`, so `blockSize` ends up as the length of the last
fragment among the first `ids.length` entries of `blockList`. -/
def doDecode (F : FieldEngine) (k m w : Nat) (bl : List (List Nat)) (ids : List Nat)
    (ds : Nat) : Except CodingError (List Nat) :=
  doDecodeWith F k m w (lastBlockSize (bl.take ids.length)) bl ids ds

/-- Lines 160-213, `CauchyCoding::doRepair`, parameterised by the
`blockSize` the inspection loop produced. -/
def doRepairWith (F : FieldEngine) (k m w bs : Nat) (bl : List (List Nat))
    (ids R : List Nat) : Except CodingError (List (List Nat)) :=
  if ids.dedup.length < k then .error .notEnoughBlocks
  else if ids.dedup.length < ids.length then .error .blocksNotUnique
  else
    let out := F.decSel k m w bs (erasuresOf k m ids) R (scratchInit k m bs bl ids)
    .ok (R.map (fun r => slice (List.flatten out) (r * bs) bs))

/-- Lines 160-213, `CauchyCoding::doRepair`. -/
def doRepair (F : FieldEngine) (k m w : Nat) (bl : List (List Nat)) (ids R : List Nat) :
    Except CodingError (List (List Nat)) :=
  doRepairWith F k m w (lastBlockSize (bl.take ids.length)) bl ids R

/-- A degenerate Field Engine instance (all-zero parity, identity
decode) satisfying the shape contract; used to evaluate the
orchestration layer on concrete inputs where the engine's arithmetic
is irrelevant. -/
def trivEngine : FieldEngine where
  enc := fun _ m _ bs _ => List.replicate m (zeros bs)
  dec := fun _ _ _ _ _ s => s
  decSel := fun _ _ _ _ _ _ s => s
  enc_length := by intro k m w bs d; simp
  enc_blocks := by
    intro k m w bs d b hb
    rcases List.eq_of_mem_replicate hb with rfl
    simp [zeros]
  dec_length := by intro k m w bs E s; rfl
  dec_blocks := by intro k m w bs E s h b hb; exact h b hb
  decSel_length := by intro k m w bs E r s; rfl
  decSel_blocks := by intro k m w bs E r s h b hb; exact h b hb

/-- A concrete replication engine: one parity fragment that copies data
fragment `0`, decode restores slot `0` from slot `1`.  At parameters
`(1, 1, w)` it satisfies the §6/§8 decoding contract. -/
def replEngine : FieldEngine where
  enc := fun _ m _ bs d => List.replicate m (fit bs (d.getD 0 []))
  dec := fun _ _ _ bs E s => if 0 ∈ E then s.set 0 (fit bs (s.getD 1 [])) else s
  decSel := fun _ _ _ bs E _ s => if 0 ∈ E then s.set 0 (fit bs (s.getD 1 [])) else s
  enc_length := by intro k m w bs d; simp
  enc_blocks := by
    intro k m w bs d b hb
    rcases List.eq_of_mem_replicate hb with rfl
    simp [fit, zeros]
    omega
  dec_length := by intro k m w bs E s; dsimp only; split <;> simp
  dec_blocks := by
    intro k m w bs E s h b hb
    dsimp only at hb
    split at hb
    · rcases List.mem_or_eq_of_mem_set hb with h1 | rfl
      · exact h b h1
      · simp [fit, zeros]; omega
    · exact h b hb
  decSel_length := by intro k m w bs E r s; dsimp only; split <;> simp
  decSel_blocks := by
    intro k m w bs E r s h b hb
    dsimp only at hb
    split at hb
    · rcases List.mem_or_eq_of_mem_set hb with h1 | rfl
      · exact h b h1
      · simp [fit, zeros]; omega
    · exact h b hb

/-! Arithmetic facts about the stripe layout. -/

theorem roundTo_ge (n mult : Nat) (h : 0 < mult) : n ≤ roundTo n mult := by
  rw [roundTo, Nat.mul_comm]
  have h1 := Nat.div_add_mod (n + mult - 1) mult
  have h2 := Nat.mod_lt (n + mult - 1) h
  omega

theorem roundTo_div (n mult : Nat) (h : 0 < mult) :
    roundTo n mult / mult = (n + mult - 1) / mult :=
  Nat.mul_div_cancel _ h

theorem blockSizeOf_eq_spec (ds k w : Nat) (hk : 0 < k) (hw : 0 < w) :
    blockSizeOf k w ds = roundTo (ceilDivSpec ds (k * w)) 16 * w := by
  rw [blockSizeOf, ceilDivSpec, roundTo_div ds (k * w) (Nat.mul_pos hk hw)]

theorem blockSizeOf_pos (ds k w : Nat) (hk : 0 < k) (hw : 0 < w) (hds : 0 < ds) :
    0 < blockSizeOf k w ds := by
  have hu : 0 < k * w := Nat.mul_pos hk hw
  rw [blockSizeOf, roundTo_div ds (k * w) hu]
  have h1 : 1 ≤ (ds + k * w - 1) / (k * w) := by
    rw [Nat.one_le_div_iff hu]; omega
  have h2 := roundTo_ge ((ds + k * w - 1) / (k * w)) 16 (by omega)
  have h3 : 0 < roundTo ((ds + k * w - 1) / (k * w)) 16 := by omega
  exact Nat.mul_pos h3 hw

theorem capacity (ds k w : Nat) (hk : 0 < k) (hw : 0 < w) :
    ds ≤ k * blockSizeOf k w ds := by
  have hu : 0 < k * w := Nat.mul_pos hk hw
  rw [blockSizeOf, roundTo_div ds (k * w) hu]
  have h1 : ds ≤ ((ds + k * w - 1) / (k * w)) * (k * w) := roundTo_ge ds (k * w) hu
  have h2 := roundTo_ge ((ds + k * w - 1) / (k * w)) 16 (by omega)
  calc ds ≤ ((ds + k * w - 1) / (k * w)) * (k * w) := h1
    _ ≤ roundTo ((ds + k * w - 1) / (k * w)) 16 * (k * w) :=
        Nat.mul_le_mul_right _ h2
    _ = k * (roundTo ((ds + k * w - 1) / (k * w)) 16 * w) := by ring

theorem filled_le (ds k w : Nat) (hk : 0 < k) (hw : 0 < w) :
    ds / blockSizeOf k w ds ≤ k := by
  by_cases hbs : blockSizeOf k w ds = 0
  · simp [hbs]
  · have h1 := capacity ds k w hk hw
    calc ds / blockSizeOf k w ds
        ≤ k * blockSizeOf k w ds / blockSizeOf k w ds := Nat.div_le_div_right h1
      _ = k := Nat.mul_div_cancel _ (by omega)

/-! The carving loop. -/

theorem fillLoop_diverge (fuel r f : Nat) : fillLoop 0 fuel r f = none := by
  induction fuel generalizing r f with
  | zero => rfl
  | succ n ih => simp [fillLoop, ih]

theorem fillLoop_run (bs : Nat) (hbs : 0 < bs) :
    ∀ fuel r f, r / bs < fuel → fillLoop bs fuel r f = some (f + r / bs, r % bs) := by
  intro fuel
  induction fuel with
  | zero => intro r f h; exact absurd h (Nat.not_lt_zero _)
  | succ n ih =>
    intro r f h
    by_cases hr : bs ≤ r
    · rw [fillLoop, if_pos hr]
      have e1 : r - bs + bs = r := Nat.sub_add_cancel hr
      have e2 : (r - bs) / bs + 1 = r / bs := by
        conv_rhs => rw [← e1]
        rw [Nat.add_div_right _ hbs]
      have e3 : (r - bs) % bs = r % bs := by
        conv_rhs => rw [← e1]
        rw [Nat.add_mod_right]
      rw [ih (r - bs) (f + 1) (by omega)]
      simp only [Option.some.injEq, Prod.mk.injEq]
      omega
    · rw [fillLoop, if_neg hr]
      have e1 : r / bs = 0 := Nat.div_eq_of_lt (by omega)
      have e2 : r % bs = r := Nat.mod_eq_of_lt (by omega)
      simp [e1, e2]

theorem doEncode_eq_core (F : FieldEngine) (k m w : Nat) (data : List Nat)
    (hk : 0 < k) (hw : 0 < w) (hd : data ≠ []) :
    doEncode F k m w data =
      some (doEncodeCore F k m w data (data.length / blockSizeOf k w data.length)) := by
  have hds : 0 < data.length := List.length_pos.mpr hd
  have hbs := blockSizeOf_pos data.length k w hk hw hds
  have hfuel : data.length / blockSizeOf k w data.length < data.length + 1 := by
    have := Nat.div_le_self data.length (blockSizeOf k w data.length)
    omega
  rw [doEncode, doEncodeFuel, fillLoop_run _ hbs _ _ _ hfuel]
  simp

/-! Basic buffer lemmas. -/

theorem zeros_length (n : Nat) : (zeros n).length = n := by simp [zeros]

theorem zeros_append (a b : Nat) : zeros a ++ zeros b = zeros (a + b) :=
  (List.replicate_add a b 0).symm

theorem drop_zeros (n i : Nat) : (zeros n).drop i = zeros (n - i) :=
  List.drop_replicate ..

theorem take_zeros (n i : Nat) : (zeros n).take i = zeros (min i n) :=
  List.take_replicate ..

theorem fit_length (bs : Nat) (b : List Nat) : (fit bs b).length = bs := by
  simp [fit, zeros]; omega

theorem fit_of_length (bs : Nat) (b : List Nat) (h : b.length = bs) : fit bs b = b := by
  simp [fit, zeros, ← h]

theorem padSlice_length (xs : List Nat) (off len : Nat) :
    (padSlice xs off len).length = len := by
  simp [padSlice, zeros]; omega

theorem slice_append_left (A B : List Nat) (off len : Nat) (h : off + len ≤ A.length) :
    slice (A ++ B) off len = slice A off len := by
  unfold slice
  rw [List.drop_append_eq_append_drop, List.take_append_eq_append_take]
  have h1 : len - (A.drop off).length = 0 := by simp [List.length_drop]; omega
  rw [h1]
  simp

theorem slice_append_right (A B : List Nat) (off len : Nat) (h : A.length ≤ off) :
    slice (A ++ B) off len = slice B (off - A.length) len := by
  unfold slice
  rw [List.drop_append_eq_append_drop]
  have h1 : A.drop off = [] := List.drop_eq_nil_of_le h
  rw [h1]
  simp

theorem slice_take (l : List Nat) (T off len : Nat) (h : off + len ≤ T) :
    slice (l.take T) off len = slice l off len := by
  unfold slice
  rw [List.drop_take, List.take_take]
  congr 1
  omega

theorem padSlice_eq_slice (xs : List Nat) (off len : Nat) (h : off + len ≤ xs.length) :
    padSlice xs off len = slice xs off len := by
  unfold padSlice slice
  have h1 : len - (xs.length - off) = 0 := by omega
  rw [h1]
  simp [zeros]

theorem slice_zeroext (xs : List Nat) (n off len : Nat) (h : off + len ≤ xs.length + n) :
    slice (xs ++ zeros n) off len = padSlice xs off len := by
  unfold slice padSlice
  rw [List.drop_append_eq_append_drop, List.take_append_eq_append_take]
  congr 1
  rw [drop_zeros, take_zeros]
  congr 1
  simp only [List.length_drop]
  omega

theorem padSlice_drop (xs : List Nat) (d off len : Nat) :
    padSlice (xs.drop d) off len = padSlice xs (d + off) len := by
  unfold padSlice
  rw [List.drop_drop, List.length_drop]
  have h1 : len - (xs.length - d - off) = len - (xs.length - (d + off)) := by omega
  rw [h1]

theorem padSlice_split (xs : List Nat) (off a b : Nat) :
    padSlice xs off (a + b) = padSlice xs off a ++ padSlice xs (off + a) b := by
  unfold padSlice
  by_cases h : a ≤ xs.length - off
  · have h1 : a - (xs.length - off) = 0 := by omega
    rw [h1]
    rw [List.take_add, List.drop_drop]
    have h2 : off + a = a + off := by omega
    rw [h2]
    have h3 : a + b - (xs.length - off) = b - (xs.length - (a + off)) := by omega
    rw [h3]
    simp [zeros, List.append_assoc]
  · have h1 : xs.drop (off + a) = [] := by
      apply List.drop_eq_nil_of_le
      omega
    have h2 : (xs.drop off).take a = xs.drop off := by
      apply List.take_of_length_le
      simp only [List.length_drop]
      omega
    have h3 : (xs.drop off).take (a + b) = xs.drop off := by
      apply List.take_of_length_le
      simp only [List.length_drop]
      omega
    rw [h1, h2, h3]
    simp only [List.take_nil, List.nil_append, List.append_assoc, zeros_append]
    congr 1
    congr 1
    omega

theorem padSlice_zero_left (xs : List Nat) (len : Nat) (h : xs.length ≤ len) :
    padSlice xs 0 len = xs ++ zeros (len - xs.length) := by
  unfold padSlice
  rw [List.drop_zero, List.take_of_length_le h, Nat.sub_zero]

theorem dataChunk_length (xs : List Nat) (bs i : Nat) :
    (dataChunk xs bs i).length = bs := padSlice_length ..

theorem flatten_chunks (xs : List Nat) (bs : Nat) :
    ∀ K, List.flatten ((List.range K).map (fun i => dataChunk xs bs i)) =
      padSlice xs 0 (K * bs) := by
  intro K
  induction K with
  | zero => simp [padSlice, zeros]
  | succ n ih =>
    rw [List.range_succ, List.map_append, List.flatten_append, ih]
    simp only [List.map_cons, List.map_nil, List.flatten_cons, List.flatten_nil,
      List.append_nil]
    rw [Nat.succ_mul, padSlice_split xs 0 (n * bs) bs]
    simp [dataChunk]

theorem flatten_length_uniform (l : List (List Nat)) (bs : Nat)
    (h : ∀ b ∈ l, b.length = bs) : (List.flatten l).length = l.length * bs := by
  induction l with
  | nil => simp
  | cons b tl ih =>
    simp only [List.flatten_cons, List.length_append, List.length_cons]
    rw [h b (by simp), ih (fun c hc => h c (by simp [hc]))]
    ring

theorem flatten_slice_getD (l : List (List Nat)) (bs : Nat)
    (h : ∀ b ∈ l, b.length = bs) :
    ∀ j, j < l.length → slice (List.flatten l) (j * bs) bs = l.getD j [] := by
  induction l with
  | nil => intro j hj; simp at hj
  | cons b tl ih =>
    intro j hj
    have hb : b.length = bs := h b (by simp)
    cases j with
    | zero =>
      rw [List.flatten_cons]
      unfold slice
      rw [Nat.zero_mul, List.drop_zero, ← hb, List.take_left]
      rfl
    | succ n =>
      rw [List.flatten_cons]
      have harith : (n + 1) * bs = b.length + n * bs := by rw [hb]; ring
      unfold slice
      rw [harith, ← List.drop_drop, List.drop_left]
      exact ih (fun c hc => h c (by simp [hc])) n (by simpa using hj)

theorem getD_map_range (n i : Nat) (g : Nat → List Nat) (h : i < n) :
    ((List.range n).map g).getD i [] = g i := by
  have hlen : i < ((List.range n).map g).length := by simp [h]
  rw [List.getD_eq_getElem _ _ hlen]
  simp

theorem getD_mem (l : List (List Nat)) (i : Nat) (h : i < l.length) :
    l.getD i [] ∈ l := by
  rw [List.getD_eq_getElem _ _ h]
  exact List.getElem_mem h

theorem eq_of_getD (l₁ l₂ : List (List Nat)) (hlen : l₁.length = l₂.length)
    (h : ∀ i, i < l₁.length → l₁.getD i [] = l₂.getD i []) : l₁ = l₂ := by
  apply List.ext_getElem hlen
  intro i h₁ h₂
  have h3 := h i h₁
  rwa [List.getD_eq_getElem _ _ h₁, List.getD_eq_getElem _ _ h₂] at h3

theorem lookup_zip_map (ids : List Nat) (f : Nat → List Nat) (id : Nat)
    (h : id ∈ ids) : List.lookup id (ids.zip (ids.map f)) = some (f id) := by
  induction ids with
  | nil => simp at h
  | cons x tl ih =>
    simp only [List.map_cons, List.zip_cons_cons, List.lookup_cons]
    by_cases hx : id = x
    · subst hx
      simp
    · have hbeq : (id == x) = false := by simp [hx]
      rw [hbeq]
      have hmem : id ∈ tl := by
        rcases List.mem_cons.mp h with h1 | h1
        · exact absurd h1 hx
        · exact h1
      exact ih hmem

theorem blocksOf_map (ids : List Nat) (f : Nat → List Nat) (id : Nat) (h : id ∈ ids) :
    blocksOf (ids.map f) ids id = f id := by
  rw [blocksOf, lookup_zip_map ids f id h]
  rfl

theorem foldl_const_last (l : List (List Nat)) (h : l ≠ []) :
    ∀ a : Nat, l.foldl (fun _ b => b.length) a = (l.getLast h).length := by
  induction l with
  | nil => exact absurd rfl h
  | cons x tl ih =>
    intro a
    cases tl with
    | nil => simp [List.getLast]
    | cons y tl2 =>
      have hgl : (x :: y :: tl2).getLast h = (y :: tl2).getLast (by simp) :=
        List.getLast_cons _
      rw [List.foldl_cons, ih (by simp) x.length, hgl]

theorem lastBlockSize_eq (l : List (List Nat)) (h : l ≠ []) :
    lastBlockSize l = (l.getLast h).length := foldl_const_last l h 0

theorem filter_contains_split (ids : List Nat) :
    ∀ l : List Nat,
      (l.filter (fun i => decide (i ∉ ids))).length +
        (l.filter (fun i => decide (i ∈ ids))).length = l.length := by
  intro l
  induction l with
  | nil => rfl
  | cons x tl ih =>
    by_cases hx : x ∈ ids <;> simp [List.filter_cons, hx] at ih ⊢ <;> omega

theorem nodup_subset_length (ids D : List Nat) (hn : ids.Nodup)
    (hs : ids ⊆ D) : ids.length ≤ D.length :=
  (hn.subperm hs).length_le

theorem erasures_nodup (k m : Nat) (ids : List Nat) : (erasuresOf k m ids).Nodup :=
  (List.nodup_range _).filter _

theorem mem_erasures (k m : Nat) (ids : List Nat) (e : Nat) :
    e ∈ erasuresOf k m ids ↔ e < k + m ∧ e ∉ ids := by
  simp [erasuresOf, List.mem_filter]

theorem erasures_length_le (k m : Nat) (ids : List Nat) (hn : ids.Nodup)
    (hb : ∀ a ∈ ids, a < k + m) (hk : k ≤ ids.length) :
    (erasuresOf k m ids).length ≤ m := by
  have h1 := filter_contains_split ids (List.range (k + m))
  have h2 : ids.length ≤
      ((List.range (k + m)).filter (fun i => decide (i ∈ ids))).length := by
    apply nodup_subset_length _ _ hn
    intro a ha
    rw [List.mem_filter]
    exact ⟨List.mem_range.mpr (hb a ha), by simp [ha]⟩
  have h3 : (List.range (k + m)).length = k + m := List.length_range _
  rw [erasuresOf]
  omega

theorem dedup_length_lt (ids : List Nat) (h : ¬ ids.Nodup) :
    ids.dedup.length < ids.length := by
  have hsub := List.dedup_sublist ids
  have hle := hsub.length_le
  rcases Nat.lt_or_ge ids.dedup.length ids.length with h1 | h1
  · exact h1
  · have heq : ids.dedup = ids := hsub.eq_of_length (by omega)
    exact absurd (heq ▸ List.nodup_dedup ids) h

/-! The fast decode path. -/

theorem writeAt_off_ge (buf src : List Nat) (off : Nat) (h : buf.length ≤ off) :
    writeAt buf src off = buf := by
  unfold writeAt
  rw [List.take_of_length_le h, List.append_assoc]
  exact List.take_left ..

theorem writeAt_boundary (P Q src : List Nat) :
    writeAt (P ++ Q) src P.length = P ++ (src ++ Q.drop src.length).take Q.length := by
  unfold writeAt
  rw [List.take_left]
  have hdrop : (P ++ Q).drop (P.length + src.length) = Q.drop src.length := by
    rw [← List.drop_drop, List.drop_left]
  rw [hdrop, List.length_append, List.append_assoc, List.take_add, List.take_left,
    List.drop_left]

theorem take_zeros_step (b : List Nat) (bs rest : Nat) (hb : b.length = bs) :
    b.take (min rest bs) ++ zeros (rest - min rest bs) =
      b.take rest ++ zeros (rest - bs) := by
  rcases Nat.le_total rest bs with h | h
  · have h1 : min rest bs = rest := by omega
    have h2 : rest - bs = 0 := by omega
    rw [h1]
    simp [h2, zeros]
  · have h1 : min rest bs = bs := by omega
    rw [h1, ← hb, List.take_length, List.take_of_length_le (by omega), hb]

theorem fastPath_invariant (bs ds : Nat) (blocks : Nat → List Nat) (hds : ds < 2 ^ 64) :
    ∀ j, (∀ i, i < j → (blocks i).length = bs) →
      (List.range j).foldl
        (fun buf i =>
          writeAt buf (readN (blocks i) (min (subSizeT ds (i * bs)) bs)) (i * bs))
        (zeros ds) =
      (List.flatten ((List.range j).map blocks)).take ds ++ zeros (ds - j * bs) := by
  intro j
  induction j with
  | zero => simp [zeros]
  | succ n ih =>
    intro hlen
    rw [List.range_succ, List.foldl_append, List.map_append, List.flatten_append]
    rw [ih (fun i hi => hlen i (by omega))]
    simp only [List.foldl_cons, List.foldl_nil, List.map_cons, List.map_nil,
      List.flatten_cons, List.flatten_nil, List.append_nil]
    set J := List.flatten ((List.range n).map blocks) with hJ
    have hJlen : J.length = n * bs := by
      rw [hJ]
      rw [flatten_length_uniform _ bs ?uni, List.length_map, List.length_range]
      case uni =>
        intro b hbm
        rcases List.mem_map.mp hbm with ⟨i, hi, rfl⟩
        exact hlen i (by simp at hi; omega)
    have hbn : (blocks n).length = bs := hlen n (by omega)
    have hsuccmul : (n + 1) * bs = n * bs + bs := Nat.succ_mul n bs
    by_cases hcase : ds ≤ n * bs
    · have hz : ds - n * bs = 0 := by omega
      rw [hz]
      have h1 : J.take ds ++ zeros 0 = J.take ds := by simp [zeros]
      rw [h1]
      have h2 : (J.take ds).length = ds := by
        rw [List.length_take]
        omega
      rw [writeAt_off_ge _ _ _ (by omega)]
      rw [List.take_append_of_le_length (by omega)]
      have hz2 : ds - (n + 1) * bs = 0 := by omega
      rw [hz2]
      simp [zeros]
    · push_neg at hcase
      have hsub : subSizeT ds (n * bs) = ds - n * bs := by
        unfold subSizeT
        have h3 : ds + 2 ^ 64 - n * bs = (ds - n * bs) + 2 ^ 64 := by omega
        rw [h3, Nat.add_mod_right]
        exact Nat.mod_eq_of_lt (by omega)
      have hJfull : J.take ds = J := List.take_of_length_le (by omega)
      have hread : readN (blocks n) (min (ds - n * bs) bs) = (blocks n).take (min (ds - n * bs) bs) := by
        unfold readN
        have h4 : min (ds - n * bs) bs - (blocks n).length = 0 := by rw [hbn]; omega
        simp [h4, zeros]
      rw [hsub, hread, hJfull]
      have hoff : n * bs = J.length := hJlen.symm
      rw [show writeAt (J ++ zeros (ds - n * bs)) ((blocks n).take (min (ds - n * bs) bs)) (n * bs) =
          writeAt (J ++ zeros (ds - n * bs)) ((blocks n).take (min (ds - n * bs) bs)) J.length from by rw [← hoff]]
      rw [writeAt_boundary]
      have hsrclen : ((blocks n).take (min (ds - n * bs) bs)).length = min (ds - n * bs) bs := by
        rw [List.length_take, hbn]
        omega
      rw [hsrclen, drop_zeros, zeros_length]
      have htk : ((blocks n).take (min (ds - n * bs) bs) ++
          zeros (ds - n * bs - min (ds - n * bs) bs)).length = ds - n * bs := by
        rw [List.length_append, hsrclen, zeros_length]
        omega
      rw [List.take_of_length_le (le_of_eq htk)]
      rw [List.take_append_eq_append_take, hJfull, hJlen]
      rw [take_zeros_step (blocks n) bs (ds - n * bs) hbn]
      rw [List.append_assoc]
      have harith : ds - n * bs - bs = ds - (n + 1) * bs := by omega
      rw [harith]

theorem fastPathOut_eq (k bs ds : Nat) (blocks : Nat → List Nat)
    (hlen : ∀ i, i < k → (blocks i).length = bs)
    (hcap : ds ≤ k * bs) (hds : ds < 2 ^ 64) :
    fastPathOut k bs blocks ds = (List.flatten ((List.range k).map blocks)).take ds := by
  unfold fastPathOut
  rw [fastPath_invariant bs ds blocks hds k hlen]
  have h1 : ds - k * bs = 0 := by omega
  simp [h1, zeros]

/-! Closed form of the encoder's fragment list. -/

theorem encodeCore_eq (F : FieldEngine) (k m w : Nat) (data : List Nat)
    (hk : 0 < k) (hm : 0 < m) (hw : 0 < w) (hds : 0 < data.length) :
    doEncodeCore F k m w data (data.length / blockSizeOf k w data.length) =
      (List.range (k + m)).map (fun i =>
        if i < k then dataChunk data (blockSizeOf k w data.length) i
        else (F.enc k m w (blockSizeOf k w data.length)
            ((List.range k).map (fun j => dataChunk data (blockSizeOf k w data.length) j))).getD
            (i - k) []) := by
  have hbs0 : 0 < blockSizeOf k w data.length := blockSizeOf_pos _ k w hk hw hds
  have hcap0 : data.length ≤ k * blockSizeOf k w data.length := capacity _ k w hk hw
  dsimp only [doEncodeCore]
  set ds := data.length with hds_def
  set bs := blockSizeOf k w ds with hbs_def
  set f := ds / bs with hf_def
  have hbs : 0 < bs := by rw [hbs_def, hds_def]; exact hbs0
  have hcap : ds ≤ k * bs := by rw [hbs_def, hds_def]; exact hcap0
  have hfk : f ≤ k := by rw [hf_def, hbs_def]; exact filled_le ds k w hk hw
  have hfb : f * bs ≤ ds := by rw [hf_def]; exact Nat.div_mul_le_self ds bs
  have hmul_le : ∀ a b : Nat, a ≤ b → a * bs ≤ b * bs :=
    fun a b h => Nat.mul_le_mul_right bs h
  have htail : ds - f * bs < bs := by
    have h1 : bs * f + ds % bs = ds := by rw [hf_def]; exact Nat.div_add_mod ds bs
    have h2 : ds % bs < bs := Nat.mod_lt ds hbs
    have h3 : f * bs = bs * f := Nat.mul_comm f bs
    omega
  have hone : bs ≤ (k + m - f) * bs := by
    have h4 : 1 * bs ≤ (k + m - f) * bs := hmul_le 1 (k + m - f) (by omega)
    simpa using h4
  have hdrop_len : (data.drop (f * bs)).length = ds - f * bs := by
    rw [List.length_drop, hds_def]
  have hlow : ∀ i, i < f → slice data (i * bs) bs = dataChunk data bs i := by
    intro i hif
    have h6 : i * bs + bs ≤ ds := by
      have e4 : (i + 1) * bs = i * bs + bs := by ring
      have e5 : (i + 1) * bs ≤ f * bs := hmul_le (i + 1) f (by omega)
      omega
    have h7 := padSlice_eq_slice data (i * bs) bs (by rw [← hds_def]; omega)
    rw [dataChunk]
    exact h7.symm
  have hmid : ∀ i, f ≤ i → i < k + m →
      slice (data.drop (f * bs) ++ zeros ((k + m - f) * bs - (ds - f * bs)))
        ((i - f) * bs) bs = dataChunk data bs i := by
    intro i hfi hik
    have hcond : (i - f) * bs + bs ≤
        (data.drop (f * bs)).length + ((k + m - f) * bs - (ds - f * bs)) := by
      have e3 : (i - f + 1) * bs ≤ (k + m - f) * bs := hmul_le (i - f + 1) (k + m - f) (by omega)
      have e4 : (i - f + 1) * bs = (i - f) * bs + bs := by ring
      omega
    rw [slice_zeroext _ _ _ _ hcond, padSlice_drop]
    have harg : f * bs + (i - f) * bs = i * bs := by
      have e1 := Nat.sub_mul i f bs
      have e2 := hmul_le f i hfi
      omega
    rw [dataChunk, harg]
  have hscr0len : (data.drop (f * bs) ++
      zeros ((k + m - f) * bs - (ds - f * bs))).length = (k + m - f) * bs := by
    rw [List.length_append, hdrop_len, zeros_length]
    omega
  have hdb : ((List.range k).map (fun i =>
      if i < f then slice data (i * bs) bs
      else slice (data.drop (f * bs) ++ zeros ((k + m - f) * bs - (ds - f * bs)))
        ((i - f) * bs) bs)) =
      (List.range k).map (fun j => dataChunk data bs j) := by
    apply List.map_congr_left
    intro i hi
    rw [List.mem_range] at hi
    by_cases hif : i < f
    · rw [if_pos hif]
      exact hlow i hif
    · rw [if_neg hif]
      exact hmid i (by omega) (by omega)
  rw [hdb]
  apply List.map_congr_left
  intro i hi
  rw [List.mem_range] at hi
  have hAlen : ((data.drop (f * bs) ++
      zeros ((k + m - f) * bs - (ds - f * bs))).take ((k - f) * bs)).length =
      (k - f) * bs := by
    rw [List.length_take, hscr0len]
    have e5 := hmul_le (k - f) (k + m - f) (by omega)
    omega
  by_cases hif : i < f
  · rw [if_pos hif, if_pos (by omega : i < k)]
    exact hlow i hif
  · rw [if_neg hif]
    by_cases hik : i < k
    · rw [if_pos hik]
      have hbound : (i - f) * bs + bs ≤ (k - f) * bs := by
        have e3 : (i - f + 1) * bs ≤ (k - f) * bs := hmul_le (i - f + 1) (k - f) (by omega)
        have e4 : (i - f + 1) * bs = (i - f) * bs + bs := by ring
        omega
      rw [slice_append_left _ _ _ _ (by rw [hAlen]; exact hbound)]
      rw [slice_take _ _ _ _ hbound]
      exact hmid i (by omega) (by omega)
    · rw [if_neg hik]
      rw [slice_append_right _ _ _ _ (by rw [hAlen]; exact hmul_le _ _ (by omega))]
      rw [hAlen]
      have harg2 : (i - f) * bs - (k - f) * bs = (i - k) * bs := by
        have e1 := Nat.sub_mul i f bs
        have e2 := Nat.sub_mul k f bs
        have e3 := Nat.sub_mul i k bs
        have e4 := hmul_le f k hfk
        have e5 := hmul_le k i (by omega)
        have e6 := hmul_le f i (by omega)
        omega
      rw [harg2]
      exact flatten_slice_getD _ bs
        (F.enc_blocks k m w bs _) (i - k)
        (by rw [F.enc_length]; omega)

theorem getD_drop (l : List (List Nat)) (n j : Nat) (h : n + j < l.length) :
    (l.drop n).getD j [] = l.getD (n + j) [] := by
  have h1 : j < (l.drop n).length := by rw [List.length_drop]; omega
  rw [List.getD_eq_getElem _ _ h1, List.getD_eq_getElem _ _ h, List.getElem_drop]

theorem encode_frags_spec (F : FieldEngine) (k m w : Nat) (data : List Nat)
    (frags : List (List Nat)) (hk : 0 < k) (hm : 0 < m) (hw : 0 < w) (hd : data ≠ [])
    (henc : doEncode F k m w data = some frags) :
    frags.length = k + m ∧
    (∀ i, i < k → frags.getD i [] = dataChunk data (blockSizeOf k w data.length) i) ∧
    (∀ i, k ≤ i → i < k + m →
      frags.getD i [] = (F.enc k m w (blockSizeOf k w data.length)
        ((List.range k).map (fun j => dataChunk data (blockSizeOf k w data.length) j))).getD
        (i - k) []) ∧
    (∀ b ∈ frags, b.length = blockSizeOf k w data.length) := by
  have hds : 0 < data.length := List.length_pos.mpr hd
  have hcore := doEncode_eq_core F k m w data hk hw hd
  rw [hcore] at henc
  have hfr := (Option.some_inj.mp henc).symm
  rw [encodeCore_eq F k m w data hk hm hw hds] at hfr
  subst hfr
  refine ⟨by simp, ?_, ?_, ?_⟩
  · intro i hi
    rw [getD_map_range _ _ _ (by omega), if_pos hi]
  · intro i hki hi
    rw [getD_map_range _ _ _ hi, if_neg (by omega)]
  · intro b hb
    rcases List.mem_map.mp hb with ⟨i, hi, rfl⟩
    rw [List.mem_range] at hi
    by_cases hik : i < k
    · rw [if_pos hik]
      exact dataChunk_length ..
    · rw [if_neg hik]
      apply F.enc_blocks
      apply getD_mem
      rw [F.enc_length]
      omega

theorem encode_take_k (F : FieldEngine) (k m w : Nat) (data : List Nat)
    (frags : List (List Nat)) (hk : 0 < k) (hm : 0 < m) (hw : 0 < w) (hd : data ≠ [])
    (henc : doEncode F k m w data = some frags) :
    frags.take k = (List.range k).map
      (fun j => dataChunk data (blockSizeOf k w data.length) j) := by
  obtain ⟨hlen, hdata, _, _⟩ := encode_frags_spec F k m w data frags hk hm hw hd henc
  apply eq_of_getD
  · rw [List.length_take, hlen, List.length_map, List.length_range]
    omega
  · intro i hi
    rw [List.length_take, hlen] at hi
    have hik : i < k := by omega
    have h1 : (frags.take k).getD i [] = frags.getD i [] := by
      have h2 : i < frags.length := by omega
      have h3 : i < (frags.take k).length := by rw [List.length_take, hlen]; omega
      rw [List.getD_eq_getElem _ _ h3, List.getD_eq_getElem _ _ h2, List.getElem_take]
    rw [h1, hdata i hik, getD_map_range _ _ _ hik]

theorem getD_take (l : List (List Nat)) (n i : Nat) (h : i < n) (h2 : i < l.length) :
    (l.take n).getD i [] = l.getD i [] := by
  have h3 : i < (l.take n).length := by rw [List.length_take]; omega
  rw [List.getD_eq_getElem _ _ h3, List.getD_eq_getElem _ _ h2, List.getElem_take]

theorem needFix_eq_false (k : Nat) (ids : List Nat) :
    needFix k ids = false ↔ ∀ i, i < k → i ∈ ids := by
  rw [needFix, List.any_eq_false]
  constructor
  · intro h i hik
    have h1 := h i (List.mem_range.mpr hik)
    simpa using h1
  · intro h x hx
    simp [h x (List.mem_range.mp hx)]

theorem doDecodeWith_pass (F : FieldEngine) (k m w bs : Nat) (bl : List (List Nat))
    (ids : List Nat) (ds : Nat) (hn : ids.Nodup) (hk : k ≤ ids.length) :
    doDecodeWith F k m w bs bl ids ds =
      if needFix k ids = false then .ok (fastPathOut k bs (blocksOf bl ids) ds)
      else .ok ((List.flatten (decodeReconstruction F k m w bs bl ids)).take ds) := by
  unfold doDecodeWith
  rw [List.dedup_eq_self.mpr hn]
  rw [if_neg (by omega), if_neg (by omega)]

theorem doRepairWith_pass (F : FieldEngine) (k m w bs : Nat) (bl : List (List Nat))
    (ids R : List Nat) (hn : ids.Nodup) (hk : k ≤ ids.length) :
    doRepairWith F k m w bs bl ids R =
      .ok (R.map (fun r => slice
        (List.flatten (F.decSel k m w bs (erasuresOf k m ids) R (scratchInit k m bs bl ids)))
        (r * bs) bs)) := by
  unfold doRepairWith
  rw [List.dedup_eq_self.mpr hn]
  rw [if_neg (by omega), if_neg (by omega)]

theorem scratchInit_length (k m bs : Nat) (bl : List (List Nat)) (ids : List Nat) :
    (scratchInit k m bs bl ids).length = k + m := by
  simp [scratchInit]

theorem scratchInit_blocks (k m bs : Nat) (bl : List (List Nat)) (ids : List Nat) :
    ∀ b ∈ scratchInit k m bs bl ids, b.length = bs := by
  intro b hb
  rcases List.mem_map.mp hb with ⟨i, _, rfl⟩
  by_cases hmem : i ∈ ids
  · rw [if_pos hmem]
    exact fit_length ..
  · rw [if_neg hmem]
    exact zeros_length ..

theorem scratchInit_getD (k m bs : Nat) (bl : List (List Nat)) (ids : List Nat)
    (i : Nat) (hi : i < k + m) :
    (scratchInit k m bs bl ids).getD i [] =
      if i ∈ ids then fit bs (blocksOf bl ids i) else zeros bs := by
  unfold scratchInit
  exact getD_map_range _ _ _ hi

theorem flatten_take_firstK (out : List (List Nat)) (bs k m ds : Nat)
    (hlen : out.length = k + m) (hblocks : ∀ b ∈ out, b.length = bs)
    (hds : ds ≤ k * bs) :
    (List.flatten out).take ds = (List.flatten (out.take k)).take ds := by
  conv_lhs => rw [← List.take_append_drop k out]
  rw [List.flatten_append]
  rw [List.take_append_of_le_length]
  rw [flatten_length_uniform (out.take k) bs
    (fun b hb => hblocks b (List.mem_of_mem_take hb))]
  rw [List.length_take, hlen]
  have h1 : min k (k + m) = k := by omega
  rw [h1]
  exact hds

/-- C1: for every object, valid coding parameters, and every choice of at
least `k` distinct fragment indices out of the `k+m` fragments produced by
encode, decode succeeds and returns exactly the original object's bytes —
given that the Field Engine meets its §6/§8 decoding contract. -/
theorem roundtrip_decode_encode (F : FieldEngine) (k m w : Nat) (data : List Nat)
    (ids : List Nat) (frags : List (List Nat))
    (hF : EngineCorrectAt F k m w)
    (hk : 0 < k) (hm : 0 < m) (hw : 0 < w)
    (hd : data ≠ []) (hds64 : data.length < 2 ^ 64)
    (henc : doEncode F k m w data = some frags)
    (hnod : ids.Nodup) (hlen : k ≤ ids.length) (hsub : ∀ id ∈ ids, id < k + m) :
    doDecode F k m w (ids.map (fun id => frags.getD id [])) ids data.length =
      .ok data := by
  obtain ⟨hflen, hdataf, hparf, hallf⟩ :=
    encode_frags_spec F k m w data frags hk hm hw hd henc
  have hds : 0 < data.length := List.length_pos.mpr hd
  have hbs : 0 < blockSizeOf k w data.length := blockSizeOf_pos _ k w hk hw hds
  have hcap : data.length ≤ k * blockSizeOf k w data.length := capacity _ k w hk hw
  have hidsne : ids ≠ [] := by
    intro h
    rw [h] at hlen
    simp at hlen
    omega
  have hsubne : ids.map (fun id => frags.getD id []) ≠ [] := by
    rw [ne_eq, List.map_eq_nil_iff]
    exact hidsne
  have hsublen : (ids.map (fun id => frags.getD id [])).length = ids.length := by
    simp
  have hfragD : ∀ id, id < k + m → (frags.getD id []).length = blockSizeOf k w data.length :=
    fun id hid => hallf _ (getD_mem frags id (by omega))
  have hlast : lastBlockSize ((ids.map (fun id => frags.getD id [])).take ids.length) =
      blockSizeOf k w data.length := by
    rw [List.take_of_length_le (by omega), lastBlockSize_eq _ hsubne]
    have hmem := List.getLast_mem hsubne
    rcases List.mem_map.mp hmem with ⟨id, hid, hE⟩
    rw [← hE]
    exact hfragD id (hsub id hid)
  have hblocksOf : ∀ id ∈ ids,
      blocksOf (ids.map (fun id => frags.getD id [])) ids id = frags.getD id [] :=
    fun id hid => blocksOf_map ids _ id hid
  rw [doDecode, hlast,
    doDecodeWith_pass F k m w (blockSizeOf k w data.length) _ ids data.length hnod hlen]
  by_cases hfix : needFix k ids = false
  · rw [if_pos hfix]
    have hall : ∀ i, i < k → i ∈ ids := (needFix_eq_false k ids).mp hfix
    have hbl : ∀ i, i < k →
        blocksOf (ids.map (fun id => frags.getD id [])) ids i =
          dataChunk data (blockSizeOf k w data.length) i := by
      intro i hik
      rw [hblocksOf i (hall i hik), hdataf i hik]
    rw [fastPathOut_eq k (blockSizeOf k w data.length) data.length _
      (fun i hik => by rw [hbl i hik]; exact dataChunk_length ..) hcap hds64]
    have hmapeq : (List.range k).map (blocksOf (ids.map (fun id => frags.getD id [])) ids) =
        (List.range k).map (fun i => dataChunk data (blockSizeOf k w data.length) i) :=
      List.map_congr_left (fun i hi => hbl i (List.mem_range.mp hi))
    rw [hmapeq, flatten_chunks data (blockSizeOf k w data.length) k,
      padSlice_zero_left data _ hcap, List.take_left]
  · rw [if_neg hfix]
    have hagree : ∀ i, i < k + m → i ∉ erasuresOf k m ids →
        (scratchInit k m (blockSizeOf k w data.length)
          (ids.map (fun id => frags.getD id [])) ids).getD i [] =
        (Codeword F k m w (blockSizeOf k w data.length)
          ((List.range k).map
            (fun j => dataChunk data (blockSizeOf k w data.length) j))).getD i [] := by
      intro i hi hniE
      have hmem : i ∈ ids := by
        by_contra hnid
        exact hniE ((mem_erasures k m ids i).mpr ⟨hi, hnid⟩)
      rw [scratchInit_getD k m _ _ ids i hi, if_pos hmem, hblocksOf i hmem,
        fit_of_length _ _ (hfragD i hi)]
      rw [Codeword]
      have hchlen : ((List.range k).map
          (fun j => dataChunk data (blockSizeOf k w data.length) j)).length = k := by
        simp
      by_cases hik : i < k
      · rw [List.getD_append _ _ _ _ (by omega), getD_map_range _ _ _ hik]
        exact hdataf i hik
      · rw [List.getD_append_right _ _ _ _ (by omega), hchlen]
        exact hparf i (by omega) hi
    have hdec := hF (blockSizeOf k w data.length)
      ((List.range k).map (fun j => dataChunk data (blockSizeOf k w data.length) j))
      (erasuresOf k m ids)
      (scratchInit k m (blockSizeOf k w data.length)
        (ids.map (fun id => frags.getD id [])) ids)
      (by simp)
      (by
        intro b hb
        rcases List.mem_map.mp hb with ⟨i, _, rfl⟩
        exact dataChunk_length ..)
      (scratchInit_length ..)
      (scratchInit_blocks k m (blockSizeOf k w data.length)
        (ids.map (fun id => frags.getD id [])) ids)
      (erasures_nodup k m ids)
      (fun e he => ((mem_erasures k m ids e).mp he).1)
      (erasures_length_le k m ids hnod hsub hlen)
      hagree
    have hrec : decodeReconstruction F k m w (blockSizeOf k w data.length)
        (ids.map (fun id => frags.getD id [])) ids =
        F.dec k m w (blockSizeOf k w data.length) (erasuresOf k m ids)
          (scratchInit k m (blockSizeOf k w data.length)
            (ids.map (fun id => frags.getD id [])) ids) := rfl
    rw [hrec]
    have houtlen : (F.dec k m w (blockSizeOf k w data.length) (erasuresOf k m ids)
        (scratchInit k m (blockSizeOf k w data.length)
          (ids.map (fun id => frags.getD id [])) ids)).length = k + m := by
      rw [F.dec_length, scratchInit_length]
    have houtblocks := F.dec_blocks k m w (blockSizeOf k w data.length)
      (erasuresOf k m ids)
      (scratchInit k m (blockSizeOf k w data.length)
        (ids.map (fun id => frags.getD id [])) ids)
      (scratchInit_blocks k m (blockSizeOf k w data.length)
        (ids.map (fun id => frags.getD id [])) ids)
    rw [flatten_take_firstK _ (blockSizeOf k w data.length) k m data.length
      houtlen houtblocks hcap]
    have houttake : (F.dec k m w (blockSizeOf k w data.length) (erasuresOf k m ids)
        (scratchInit k m (blockSizeOf k w data.length)
          (ids.map (fun id => frags.getD id [])) ids)).take k =
        (List.range k).map (fun j => dataChunk data (blockSizeOf k w data.length) j) := by
      apply eq_of_getD
      · rw [List.length_take, houtlen]
        simp
      · intro i hi
        rw [List.length_take, houtlen] at hi
        have hik : i < k := by omega
        rw [getD_take _ _ _ hik (by omega), hdec i hik, getD_map_range _ _ _ hik]
    rw [houttake, flatten_chunks data (blockSizeOf k w data.length) k,
      padSlice_zero_left data _ hcap, List.take_left]

/-- C4: when all data indices `0..k-1` are supplied, decode returns the
data fragments `0..k-1` concatenated in order and truncated to exactly
`dataSize` bytes, and the Field Engine is never consulted: every engine
produces the same result. -/
theorem decode_fast_path (F G : FieldEngine) (k m w : Nat) (bl : List (List Nat))
    (ids : List Nat) (ds : Nat)
    (hnod : ids.Nodup) (hall : ∀ i, i < k → i ∈ ids) (_hk : 0 < k)
    (hblen : ∀ i, i < k →
      (blocksOf bl ids i).length = lastBlockSize (bl.take ids.length))
    (hcap : ds ≤ k * lastBlockSize (bl.take ids.length))
    (hds : ds < 2 ^ 64) :
    doDecode F k m w bl ids ds =
      .ok ((List.flatten ((List.range k).map (blocksOf bl ids))).take ds) ∧
    doDecode F k m w bl ids ds = doDecode G k m w bl ids ds := by
  have hlen : k ≤ ids.length := by
    have h1 := nodup_subset_length (List.range k) ids (List.nodup_range k)
      (fun a ha => hall a (List.mem_range.mp ha))
    simpa using h1
  have hfix : needFix k ids = false := (needFix_eq_false k ids).mpr hall
  have hfp : ∀ H : FieldEngine, doDecode H k m w bl ids ds =
      .ok ((List.flatten ((List.range k).map (blocksOf bl ids))).take ds) := by
    intro H
    rw [doDecode, doDecodeWith_pass H k m w _ bl ids ds hnod hlen, if_pos hfix,
      fastPathOut_eq _ _ _ _ hblen hcap hds]
  exact ⟨hfp F, (hfp F).trans (hfp G).symm⟩

/-- C5: repair returns, in request order, exactly the slots of the full
reconstruction that decode's erasure path computes from the same
fragment set, for any requested subset of the erased indices — given
the §6 relation between the engine's selected and full decode. -/
theorem repair_matches_decode (F : FieldEngine) (k m w : Nat) (bl : List (List Nat))
    (ids R : List Nat)
    (hFsel : EngineSelConsistent F k m w)
    (hnod : ids.Nodup) (hlen : k ≤ ids.length)
    (hR : ∀ r ∈ R, r < k + m ∧ r ∉ ids) :
    doRepair F k m w bl ids R =
      .ok (R.map (fun r =>
        (decodeReconstruction F k m w (lastBlockSize (bl.take ids.length)) bl ids).getD
          r [])) := by
  rw [doRepair, doRepairWith_pass F k m w _ bl ids R hnod hlen]
  congr 1
  apply List.map_congr_left
  intro r hr
  have hslots := scratchInit_blocks k m (lastBlockSize (bl.take ids.length)) bl ids
  have hsellen : (F.decSel k m w (lastBlockSize (bl.take ids.length))
      (erasuresOf k m ids) R
      (scratchInit k m (lastBlockSize (bl.take ids.length)) bl ids)).length = k + m := by
    rw [F.decSel_length, scratchInit_length]
  rw [flatten_slice_getD _ (lastBlockSize (bl.take ids.length))
    (F.decSel_blocks k m w _ (erasuresOf k m ids) R _ hslots) r
    (by rw [hsellen]; exact (hR r hr).1)]
  rw [hFsel (lastBlockSize (bl.take ids.length)) (erasuresOf k m ids) R
    (scratchInit k m (lastBlockSize (bl.take ids.length)) bl ids) r hr]
  rfl

/-- C2 (amended): supplying fewer than `k` distinct indices always fails
with InsufficientFragments, in decode and repair alike; a duplicated
index fails with DuplicateFragment whenever at least `k` distinct
indices are present (when both conditions hold, the insufficiency check
runs first and InsufficientFragments is reported). -/
theorem decode_repair_rejections (F : FieldEngine) (k m w : Nat)
    (bl : List (List Nat)) (ids : List Nat) (ds : Nat) (R : List Nat) :
    (ids.dedup.length < k →
      doDecode F k m w bl ids ds = .error .notEnoughBlocks ∧
      doRepair F k m w bl ids R = .error .notEnoughBlocks) ∧
    (k ≤ ids.dedup.length → ¬ ids.Nodup →
      doDecode F k m w bl ids ds = .error .blocksNotUnique ∧
      doRepair F k m w bl ids R = .error .blocksNotUnique) := by
  constructor
  · intro h
    constructor
    · rw [doDecode]
      unfold doDecodeWith
      rw [if_pos h]
    · rw [doRepair]
      unfold doRepairWith
      rw [if_pos h]
  · intro h1 h2
    have h3 : ids.dedup.length < ids.length := dedup_length_lt ids h2
    constructor
    · rw [doDecode]
      unfold doDecodeWith
      rw [if_neg (by omega), if_pos h3]
    · rw [doRepair]
      unfold doRepairWith
      rw [if_neg (by omega), if_pos h3]

/-- C2, counterexample to the claim as stated: with `k = 2`, supplying
index 0 twice (total count 2, which would otherwise be sufficient)
reports InsufficientFragments, not DuplicateFragment, because only one
distinct index is present and that check runs first. -/
theorem decode_duplicate_cex :
    doDecode trivEngine 2 1 1 [[5], [5]] [0, 0] 1 =
      .error CodingError.notEnoughBlocks ∧
    CodingError.notEnoughBlocks ≠ CodingError.blocksNotUnique := by
  constructor
  · rfl
  · decide

/-- C7 (amended): checkParams fails with the generic InvalidParameters
reason exactly when some parameter is non-positive; it fails with the
distinct larger-w reason exactly when all parameters are positive and
`k + m > 2^w` (the positivity check runs first); otherwise it succeeds.
The embedding is a pure function. -/
theorem checkParams_spec (k m w : Int) :
    (checkParams k m w = .error .invalidParams ↔ (k ≤ 0 ∨ m ≤ 0 ∨ w ≤ 0)) ∧
    (checkParams k m w = .error .invalidParamsLargerW ↔
      (0 < k ∧ 0 < m ∧ 0 < w ∧ (2 : Int) ^ w.toNat < k + m)) ∧
    (checkParams k m w = .ok () ↔
      (0 < k ∧ 0 < m ∧ 0 < w ∧ k + m ≤ (2 : Int) ^ w.toNat)) := by
  unfold checkParams
  by_cases h1 : k ≤ 0 ∨ m ≤ 0 ∨ w ≤ 0
  · rw [if_pos h1]
    refine ⟨⟨fun _ => h1, fun _ => rfl⟩, ?_, ?_⟩
    · constructor
      · intro hE
        simp at hE
      · intro hC
        rcases h1 with h | h | h <;> omega
    · constructor
      · intro hE
        simp at hE
      · intro hC
        rcases h1 with h | h | h <;> omega
  · rw [if_neg h1]
    push_neg at h1
    obtain ⟨hkp, hmp, hwp⟩ := h1
    by_cases h2 : (2 : Int) ^ w.toNat < k + m
    · rw [if_pos h2]
      refine ⟨?_, ⟨fun _ => ⟨hkp, hmp, hwp, h2⟩, fun _ => rfl⟩, ?_⟩
      · constructor
        · intro hE
          simp at hE
        · intro hC
          rcases hC with h | h | h <;> omega
      · constructor
        · intro hE
          simp at hE
        · intro hC
          exact absurd hC.2.2.2 (by omega)
    · rw [if_neg h2]
      refine ⟨?_, ?_, ⟨fun _ => ⟨hkp, hmp, hwp, by omega⟩, fun _ => rfl⟩⟩
      · constructor
        · intro hE
          simp at hE
        · intro hC
          rcases hC with h | h | h <;> omega
      · constructor
        · intro hE
          simp at hE
        · intro hC
          exact absurd hC.2.2.2 h2

/-- C7, counterexample to the claim as stated: at `k = 0, m = 100, w = 1`
the field is too small (`k + m > 2^w`), yet checkParams reports the
generic InvalidParameters reason, because the positivity check fires
first — the distinct reason is not raised "exactly when k + m > 2^w". -/
theorem checkParams_cex :
    checkParams 0 100 1 = .error CodingError.invalidParams ∧
    (2 : Int) ^ (1 : Int).toNat < 0 + 100 ∧
    CodingError.invalidParams ≠ CodingError.invalidParamsLargerW := by
  refine ⟨rfl, by decide, by decide⟩

/-- C3: the planner's fragment size is the spec's two-stage rounding
`roundUp(ceil(dataSize / (k*w)), 16) * w`; in particular it is 256 for
`k = 4`, `w = 8` and a 1000-byte object. -/
theorem planner_fragment_size :
    (∀ ds k w : Nat, 0 < k → 0 < w →
      blockSizeOf k w ds = roundTo (ceilDivSpec ds (k * w)) 16 * w) ∧
    blockSizeOf 4 8 1000 = 256 := by
  exact ⟨fun ds k w hk hw => blockSizeOf_eq_spec ds k w hk hw, by decide⟩

theorem roundTo_zero (mult : Nat) : roundTo 0 mult = 0 := by
  unfold roundTo
  rcases Nat.eq_zero_or_pos mult with h | h
  · simp [h]
  · rw [Nat.zero_add, Nat.div_eq_of_lt (by omega), Nat.zero_mul]

theorem blockSizeOf_zero (k w : Nat) : blockSizeOf k w 0 = 0 := by
  unfold blockSizeOf
  rw [roundTo_zero, Nat.zero_div, roundTo_zero, Nat.zero_mul]

/-- C9: for every nonempty object and valid parameters the carving loop
exits with `filled = dataSize / fragmentSize`, `filled ≤ k`, a tail
`dataSize - filled * fragmentSize` strictly below `fragmentSize` that
fits inside the `(k + m - filled) * fragmentSize` scratch region; for
the empty object `fragmentSize = 0`, the tail bound is unsatisfiable
and the carving loop never exits. -/
theorem encode_tail_safety :
    (∀ (k m w : Nat) (data : List Nat), 0 < k → 0 < m → 0 < w → data ≠ [] →
      fillLoop (blockSizeOf k w data.length) (data.length + 1) data.length 0 =
        some (data.length / blockSizeOf k w data.length,
              data.length % blockSizeOf k w data.length) ∧
      data.length / blockSizeOf k w data.length ≤ k ∧
      data.length % blockSizeOf k w data.length < blockSizeOf k w data.length ∧
      data.length % blockSizeOf k w data.length =
        data.length -
          (data.length / blockSizeOf k w data.length) * blockSizeOf k w data.length ∧
      data.length % blockSizeOf k w data.length ≤
        (k + m - data.length / blockSizeOf k w data.length) * blockSizeOf k w data.length) ∧
    (blockSizeOf 4 8 0 = 0 ∧ fillLoop (blockSizeOf 4 8 0) 500 0 0 = none) := by
  constructor
  · intro k m w data hk hm hw hd
    have hds : 0 < data.length := List.length_pos.mpr hd
    have hbs : 0 < blockSizeOf k w data.length := blockSizeOf_pos _ k w hk hw hds
    have hfk := filled_le data.length k w hk hw
    have hdm : blockSizeOf k w data.length *
        (data.length / blockSizeOf k w data.length) +
        data.length % blockSizeOf k w data.length = data.length :=
      Nat.div_add_mod data.length (blockSizeOf k w data.length)
    have hcomm : (data.length / blockSizeOf k w data.length) * blockSizeOf k w data.length =
        blockSizeOf k w data.length * (data.length / blockSizeOf k w data.length) :=
      Nat.mul_comm ..
    have hmodlt : data.length % blockSizeOf k w data.length < blockSizeOf k w data.length :=
      Nat.mod_lt _ hbs
    refine ⟨?_, hfk, hmodlt, by omega, ?_⟩
    · rw [fillLoop_run _ hbs _ _ _
        (by have := Nat.div_le_self data.length (blockSizeOf k w data.length); omega)]
      simp
    · have hone : 1 * blockSizeOf k w data.length ≤
          (k + m - data.length / blockSizeOf k w data.length) * blockSizeOf k w data.length :=
        Nat.mul_le_mul_right _ (by omega)
      have h1 : 1 * blockSizeOf k w data.length = blockSizeOf k w data.length :=
        Nat.one_mul _
      omega
  · refine ⟨by decide, ?_⟩
    rw [blockSizeOf_zero]
    exact fillLoop_diverge 500 0 0

/-- C6: decode and repair are total as modelled, and the encoder's
carving loop exits for every nonempty object, after which encode
returns; but on the empty object `blockSize = 0` and the loop condition
`remain >= blockSize` never becomes false, so no amount of fuel makes
encode return — it runs forever. -/
theorem operations_terminate :
    (∀ (F : FieldEngine) (k m w fuel : Nat), doEncodeFuel F k m w [] fuel = none) ∧
    (∀ (F : FieldEngine) (k m w : Nat) (data : List Nat),
      0 < k → 0 < w → data ≠ [] →
      doEncode F k m w data =
        some (doEncodeCore F k m w data (data.length / blockSizeOf k w data.length))) := by
  constructor
  · intro F k m w fuel
    rw [doEncodeFuel, List.length_nil, blockSizeOf_zero, fillLoop_diverge]
  · intro F k m w data hk hw hd
    exact doEncode_eq_core F k m w data hk hw hd

/-- C10: the blockSize that drives all slot offsets, the scratch-region
layout and the Field Engine call in decode and repair is the byte
length of the last supplied fragment, because the inspection loop
overwrites it on every iteration. -/
theorem blockSize_from_last (F : FieldEngine) (k m w : Nat) (bl : List (List Nat))
    (ids : List Nat) (ds : Nat) (R : List Nat)
    (hne : bl ≠ []) (hlen : bl.length = ids.length) :
    lastBlockSize (bl.take ids.length) = (bl.getLast hne).length ∧
    doDecode F k m w bl ids ds =
      doDecodeWith F k m w ((bl.getLast hne).length) bl ids ds ∧
    doRepair F k m w bl ids R =
      doRepairWith F k m w ((bl.getLast hne).length) bl ids R := by
  have h1 : bl.take ids.length = bl := by
    rw [← hlen]
    exact List.take_length bl
  have h2 : lastBlockSize (bl.take ids.length) = (bl.getLast hne).length := by
    rw [h1]
    exact lastBlockSize_eq bl hne
  exact ⟨h2, by rw [doDecode, h2], by rw [doRepair, h2]⟩

/-- C8: for every nonempty object and valid parameters, encode returns
exactly `k + m` fragments of exactly `fragmentSize` bytes each: the data
fragments at indices `0..k-1` followed by the parity the Field Engine
computes from them.  (For the empty object encode never returns — the
carving loop spins; see the termination theorem.) -/
theorem encode_shape (F : FieldEngine) (k m w : Nat) (data : List Nat)
    (frags : List (List Nat))
    (hk : 0 < k) (hm : 0 < m) (hw : 0 < w) (hd : data ≠ [])
    (henc : doEncode F k m w data = some frags) :
    frags.map List.length = List.replicate (k + m) (blockSizeOf k w data.length) ∧
    frags.drop k = F.enc k m w (blockSizeOf k w data.length) (frags.take k) := by
  obtain ⟨hflen, _, hparf, hallf⟩ :=
    encode_frags_spec F k m w data frags hk hm hw hd henc
  constructor
  · rw [List.eq_replicate_iff]
    constructor
    · simp [hflen]
    · intro b hb
      rcases List.mem_map.mp hb with ⟨c, hc, rfl⟩
      exact hallf c hc
  · rw [encode_take_k F k m w data frags hk hm hw hd henc]
    apply eq_of_getD
    · rw [List.length_drop, hflen, F.enc_length]
      omega
    · intro i hi
      rw [List.length_drop, hflen] at hi
      rw [getD_drop frags k i (by omega), hparf (k + i) (by omega) (by omega)]
      rw [show k + i - k = i from by omega]

/-- The replication engine meets the §6/§8 decoding contract at
parameters `(1, 1, w)`: with one data and one parity fragment holding
the same bytes, any single surviving fragment determines the data slot. -/
theorem replEngine_correct (w : Nat) : EngineCorrectAt replEngine 1 1 w := by
  intro bs dblocks E slots hdlen hdbs hslen _hsbs hEnd _hEb hElen hagree i hik
  have hi0 : i = 0 := by omega
  subst hi0
  obtain ⟨d0, hd0⟩ : ∃ d0, dblocks = [d0] := by
    cases dblocks with
    | nil => simp at hdlen
    | cons a tl =>
      cases tl with
      | nil => exact ⟨a, rfl⟩
      | cons b tl2 => simp at hdlen
  subst hd0
  have hd0bs : d0.length = bs := hdbs d0 (by simp)
  have hcw : Codeword replEngine 1 1 w bs [d0] = [d0, d0] := by
    rw [Codeword]
    show [d0] ++ List.replicate 1 (fit bs ([d0].getD 0 [])) = [d0, d0]
    rw [show [d0].getD 0 [] = d0 from rfl, fit_of_length bs d0 hd0bs]
    rfl
  show (replEngine.dec 1 1 w bs E slots).getD 0 [] = [d0].getD 0 []
  by_cases h0 : 0 ∈ E
  · have h1 : 1 ∉ E := by
      intro h1
      have hsp := nodup_subset_length [0, 1] E (by decide)
        (by
          intro a ha
          simp at ha
          rcases ha with rfl | rfl
          · exact h0
          · exact h1)
      simp at hsp
      omega
    have hag1 := hagree 1 (by omega) h1
    rw [hcw] at hag1
    have hag1d : slots.getD 1 [] = d0 := by
      rw [hag1]
      rfl
    show ((if 0 ∈ E then slots.set 0 (fit bs (slots.getD 1 [])) else slots)).getD 0 [] =
      [d0].getD 0 []
    rw [if_pos h0, hag1d, fit_of_length bs d0 hd0bs]
    rw [List.getD_eq_getElem _ _ (by rw [List.length_set]; omega)]
    rw [List.getElem_set_self]
    rfl
  · have hag0 := hagree 0 (by omega) h0
    rw [hcw] at hag0
    show ((if 0 ∈ E then slots.set 0 (fit bs (slots.getD 1 [])) else slots)).getD 0 [] =
      [d0].getD 0 []
    rw [if_neg h0, hag0]
    rfl

/-- The degenerate engine's selected decode agrees with its full decode
on every slot, selected or not. -/
theorem trivEngine_selConsistent (k m w : Nat) : EngineSelConsistent trivEngine k m w :=
  fun _ _ _ _ _ _ => rfl

/-- C1 witness: a concrete round trip at `k = m = w = 1` over the
replication engine, decoding from the parity fragment alone. -/
theorem roundtrip_decode_encode_witness :
    doDecode replEngine 1 1 1
      ([1].map (fun id => ((doEncode replEngine 1 1 1 [5]).getD []).getD id [])) [1]
      [5].length = .ok [5] :=
  roundtrip_decode_encode replEngine 1 1 1 [5] [1]
    ((doEncode replEngine 1 1 1 [5]).getD [])
    (replEngine_correct 1) (by decide) (by decide) (by decide) (by decide) (by decide)
    rfl (by decide) (by decide) (by decide)

/-- C2 witness: a duplicated index with too few distinct indices is
rejected as insufficient; a duplicated index with enough distinct
indices is rejected as a duplicate, in decode and repair alike. -/
theorem decode_repair_rejections_witness :
    (doDecode trivEngine 3 1 2 [[7], [7]] [0, 0] 2 = .error .notEnoughBlocks ∧
      doRepair trivEngine 3 1 2 [[7], [7]] [0, 0] [2] = .error .notEnoughBlocks) ∧
    (doDecode trivEngine 1 1 2 [[7], [7]] [0, 0] 2 = .error .blocksNotUnique ∧
      doRepair trivEngine 1 1 2 [[7], [7]] [0, 0] [1] = .error .blocksNotUnique) :=
  ⟨(decode_repair_rejections trivEngine 3 1 2 [[7], [7]] [0, 0] 2 [2]).1 (by decide),
   (decode_repair_rejections trivEngine 1 1 2 [[7], [7]] [0, 0] 2 [1]).2
     (by decide) (by decide)⟩

/-- C3 witness: the planner formula at the spec's concrete scenario. -/
theorem planner_fragment_size_witness :
    blockSizeOf 4 8 1000 = roundTo (ceilDivSpec 1000 (4 * 8)) 16 * 8 :=
  planner_fragment_size.1 1000 4 8 (by decide) (by decide)

/-- C4 witness: both data fragments present, `dataSize = 3` out of
`2 * 2` fragment bytes; the result is the truncated concatenation and
is identical under two different engines. -/
theorem decode_fast_path_witness :
    doDecode trivEngine 2 1 1 [[1, 2], [3, 4]] [0, 1] 3 =
      .ok ((List.flatten ((List.range 2).map (blocksOf [[1, 2], [3, 4]] [0, 1]))).take 3) ∧
    doDecode trivEngine 2 1 1 [[1, 2], [3, 4]] [0, 1] 3 =
      doDecode replEngine 2 1 1 [[1, 2], [3, 4]] [0, 1] 3 :=
  decode_fast_path trivEngine replEngine 2 1 1 [[1, 2], [3, 4]] [0, 1] 3
    (by decide) (by decide) (by decide) (by decide) (by decide) (by decide)

/-- C5 witness: repairing the erased parity slot returns exactly that
slot of decode's full reconstruction. -/
theorem repair_matches_decode_witness :
    doRepair trivEngine 1 1 1 [[7]] [0] [1] =
      .ok ([1].map (fun r =>
        (decodeReconstruction trivEngine 1 1 1 (lastBlockSize ([[7]].take [0].length))
          [[7]] [0]).getD r [])) :=
  repair_matches_decode trivEngine 1 1 1 [[7]] [0] [1]
    (trivEngine_selConsistent 1 1 1) (by decide) (by decide) (by decide)

/-- C6 witness: encode of the empty object makes no progress on any
fuel (1000 shown here), while a nonempty object encodes to its
fragment list. -/
theorem operations_terminate_witness :
    doEncodeFuel trivEngine 4 2 8 [] 1000 = none ∧
    doEncode trivEngine 1 1 1 [5] =
      some (doEncodeCore trivEngine 1 1 1 [5] ([5].length / blockSizeOf 1 1 [5].length)) :=
  ⟨operations_terminate.1 trivEngine 4 2 8 1000,
   operations_terminate.2 trivEngine 1 1 1 [5] (by decide) (by decide) (by decide)⟩

/-- C7 witness: a fully valid parameter triple is accepted. -/
theorem checkParams_spec_witness : checkParams 4 2 3 = .ok () :=
  (checkParams_spec 4 2 3).2.2.mpr (by decide)

set_option maxRecDepth 40000

/-- C8 witness: the spec's concrete scenario — a 1000-byte object with
`k = 4, m = 2, w = 8` encodes to `4 + 2` fragments whose lengths are
all `fragmentSize`, which evaluates to 256. -/
theorem encode_shape_witness :
    ((doEncode trivEngine 4 2 8 (List.replicate 1000 7)).getD []).map List.length =
      List.replicate (4 + 2) (blockSizeOf 4 8 (List.replicate 1000 7).length) ∧
    ((doEncode trivEngine 4 2 8 (List.replicate 1000 7)).getD []).drop 4 =
      trivEngine.enc 4 2 8 (blockSizeOf 4 8 (List.replicate 1000 7).length)
        (((doEncode trivEngine 4 2 8 (List.replicate 1000 7)).getD []).take 4) ∧
    blockSizeOf 4 8 (List.replicate 1000 7).length = 256 := by
  have h := encode_shape trivEngine 4 2 8 (List.replicate 1000 7)
    ((doEncode trivEngine 4 2 8 (List.replicate 1000 7)).getD [])
    (by decide) (by decide) (by decide) (by decide) rfl
  exact ⟨h.1, h.2, by decide⟩

/-- C9 witness: the carving invariants at a one-byte object with
`k = m = w = 1`. -/
theorem encode_tail_safety_witness :
    fillLoop (blockSizeOf 1 1 [5].length) ([5].length + 1) [5].length 0 =
      some ([5].length / blockSizeOf 1 1 [5].length,
            [5].length % blockSizeOf 1 1 [5].length) ∧
    [5].length / blockSizeOf 1 1 [5].length ≤ 1 ∧
    [5].length % blockSizeOf 1 1 [5].length < blockSizeOf 1 1 [5].length ∧
    [5].length % blockSizeOf 1 1 [5].length =
      [5].length - ([5].length / blockSizeOf 1 1 [5].length) * blockSizeOf 1 1 [5].length ∧
    [5].length % blockSizeOf 1 1 [5].length ≤
      (1 + 1 - [5].length / blockSizeOf 1 1 [5].length) * blockSizeOf 1 1 [5].length :=
  encode_tail_safety.1 1 1 1 [5] (by decide) (by decide) (by decide) (by decide)

/-- C10 witness: two supplied fragments of different lengths — the last
one's length (2) silently becomes the blockSize of the whole call. -/
theorem blockSize_from_last_witness :
    lastBlockSize ([[1], [2, 3]].take [0, 1].length) =
      ([[1], [2, 3]].getLast (by decide)).length ∧
    doDecode trivEngine 1 1 1 [[1], [2, 3]] [0, 1] 1 =
      doDecodeWith trivEngine 1 1 1 (([[1], [2, 3]].getLast (by decide)).length)
        [[1], [2, 3]] [0, 1] 1 ∧
    doRepair trivEngine 1 1 1 [[1], [2, 3]] [0, 1] [] =
      doRepairWith trivEngine 1 1 1 (([[1], [2, 3]].getLast (by decide)).length)
        [[1], [2, 3]] [0, 1] [] :=
  blockSize_from_last trivEngine 1 1 1 [[1], [2, 3]] [0, 1] 1 [] (by decide) (by decide)

end LeoErasure
